import Mathlib

/-!
Verification development for the bare-metal usage billing scripts
(`bare_metal_billing`): a shallow embedding of the interval-accounting
engine, the lease classifier, the usage aggregator, the invoice renderer
and the excluded-time-range configuration parser, together with theorems
checking the documented behaviour.

Timestamps are embedded as integers (seconds); Python `datetime`
subtraction followed by `total_seconds()` corresponds to integer
subtraction at whole-second granularity, and monetary `Decimal` values
are embedded as rationals.
-/

namespace BareMetalBilling

/-- One bare-metal node reservation, after pydantic schema validation
(`models.BMNodeUsage`).  `expire_time = none` embeds a JSON record with no
`Expire Time` field. -/
structure BMNodeUsage where
  uuid : String
  resource : String
  resource_class : String
  project : String
  start_time : Int
  expire_time : Option Int
  deriving DecidableEq, Repr

/-- The list `billing.BM_SU_LIST`: the canonical SU names. -/
def BM_SU_LIST : List String :=
  ["BM FC430", "BM FC830", "BM GPUA100SXM4", "BM GPUH100"]

/-- The table `billing.RESOURCE_CLASS_2_SU_MAPPING`: static mapping from
hardware SKU string to canonical SU name. -/
def RESOURCE_CLASS_2_SU_MAPPING : List (String × String) :=
  [("lenovo-sd665nv3-h100", "BM GPUH100"),
   ("lenovo-sd650nv2-a100", "BM GPUA100SXM4"),
   ("sd650nv2", "BM GPUA100SXM4"),
   ("fc430", "BM FC430"),
   ("fc830", "BM FC830")]

/-- First-match lookup in an association list with string keys, embedding
Python `dict.get`-style lookup (the dictionaries involved all have
distinct keys). -/
def lookupStr {α : Type} : List (String × α) → String → Option α
  | [], _ => none
  | (k, v) :: rest, key => if k = key then some v else lookupStr rest key

/-- The classifier `billing._get_su_type`: table lookup with verbatim
fallback (`RESOURCE_CLASS_2_SU_MAPPING.get(rc, rc)`). -/
def get_su_type (lease_info : BMNodeUsage) : String :=
  (lookupStr RESOURCE_CLASS_2_SU_MAPPING lease_info.resource_class).getD
    lease_info.resource_class

/-- The function `billing._clamp_time`: two sequential conditional
reassignments, the lower bound applied first, then the upper bound. -/
def clamp_time (time min_time max_time : Int) : Int :=
  let t := if time < min_time then min_time else time
  if t > max_time then max_time else t

/-- Python `math.ceil(secs / 3600)` for an integral number of seconds:
the ceiling of `secs / 3600`, as an integer. -/
def ceilHours (secs : Int) : Int := -((-secs) / 3600)

/-- The clamped start of `billing._get_running_time`:
`_clamp_time(lease_info.start_time, start_time, end_time)`. -/
def effStart (lease_info : BMNodeUsage) (start_time end_time : Int) : Int :=
  clamp_time lease_info.start_time start_time end_time

/-- The effective end of `billing._get_running_time`: `end_time` when the
lease has no expire time, otherwise the expire time clamped between the
already-clamped start and `end_time`. -/
def effEnd (lease_info : BMNodeUsage) (start_time end_time : Int) : Int :=
  match lease_info.expire_time with
  | none => end_time
  | some e => clamp_time e (effStart lease_info start_time end_time) end_time

/-- The function `billing._get_running_time` (the three-argument form in
`billing.py`): hours between the clamped start and effective end, rounded
up to a whole hour. -/
def get_running_time (lease_info : BMNodeUsage) (start_time end_time : Int) : Int :=
  ceilHours (effEnd lease_info start_time end_time - effStart lease_info start_time end_time)

/-- Per-project usage (`models.ProjectUsage`): SU hours as an insertion-
ordered association list, embedding the Python dict. -/
structure ProjectUsage where
  project_name : String
  su_hours : List (String × Int)
  deriving DecidableEq, Repr

/-- Hours stored for an SU type in a `su_hours` dict; `0` when absent. -/
def lookupHours : List (String × Int) → String → Int
  | [], _ => 0
  | (k, v) :: rest, su => if k = su then v else lookupHours rest su

/-- The method `models.ProjectUsage.add_usage`: create the key at `0` when missing,
then add `hours` to it; a missing key is created at the end of the dict. -/
def addUsageEntry : List (String × Int) → String → Int → List (String × Int)
  | [], su, hours => [(su, 0 + hours)]
  | (k, v) :: rest, su, hours =>
    if k = su then (k, v + hours) :: rest
    else (k, v) :: addUsageEntry rest su hours

/-- One iteration of the `billing.get_project_invoices` loop:
`setdefault(project, ProjectUsage(project, {}))` followed by
`add_usage(su_type, hours)` on the project's entry, with dict insertion
order preserved. -/
def updateProject : List ProjectUsage → String → String → Int → List ProjectUsage
  | [], p, su, hours => [⟨p, addUsageEntry [] su hours⟩]
  | pu :: rest, p, su, hours =>
    if pu.project_name = p then
      ⟨pu.project_name, addUsageEntry pu.su_hours su hours⟩ :: rest
    else pu :: updateProject rest p su hours

/-- The aggregator `billing.get_project_invoices` (three-argument form in `billing.py`):
fold the lease list into the per-project dict, then list the values in
insertion order. -/
def get_project_invoices (bm_usage_data : List BMNodeUsage)
    (start_time end_time : Int) : List ProjectUsage :=
  bm_usage_data.foldl
    (fun acc lease_info =>
      updateProject acc lease_info.project (get_su_type lease_info)
        (get_running_time lease_info start_time end_time))
    []

/-- The hours the aggregate assigns to a `(project, suType)` pair:
first matching project entry, then its SU entry, `0` when absent. -/
def aggLookup : List ProjectUsage → String → String → Int
  | [], _, _ => 0
  | pu :: rest, p, su =>
    if pu.project_name = p then lookupHours pu.su_hours su
    else aggLookup rest p su

/-- The hours a single lease contributes to the `(p, su)` cell of the
aggregate. -/
def leaseContrib (ws we : Int) (p su : String) (lease : BMNodeUsage) : Int :=
  if p = lease.project ∧ su = get_su_type lease then get_running_time lease ws we
  else 0

/-- The validator `models.BMUsageData.validate_expire_time`: drop records whose expire
time precedes their start time, keep everything else in order. -/
def validate_expire_time : List BMNodeUsage → List BMNodeUsage
  | [] => []
  | r :: rest =>
    match r.expire_time with
    | some e =>
      if e < r.start_time then validate_expire_time rest
      else r :: validate_expire_time rest
    | none => r :: validate_expire_time rest

/-- The record predicate `validate_expire_time` keeps. -/
def keepB (r : BMNodeUsage) : Bool :=
  match r.expire_time with
  | none => true
  | some e => decide (r.start_time ≤ e)

/-- Modelled from the spec: `billing.py` under `src/` predates the
excluded-time-ranges feature — `main.py` and the test suite invoke
`_get_running_time` and `get_project_invoices` with an excluded-ranges
argument that the three-argument versions there lack.  Following §4.1
`subtractExclusions`: starting from the full effective-interval duration,
for each exclusion subtract the duration of its intersection with the
interval (`max` of starts to `min` of ends) when non-empty, and floor the
result at zero. -/
def subtractExclusions (effS effE : Int) (exclusions : List (Int × Int)) : Int :=
  max
    (exclusions.foldl
      (fun total ex =>
        if max ex.1 effS < min ex.2 effE then total - (min ex.2 effE - max ex.1 effS)
        else total)
      (effE - effS))
    0

/-- Modelled from the spec: the exclusion-aware running time
(`billableHours`, §4.1) missing from `billing.py` under `src/` — the
effective interval from the clamping code, seconds remaining after
exclusion subtraction, converted to hours by rounding up. -/
def get_running_time_excluded (lease_info : BMNodeUsage) (start_time end_time : Int)
    (excluded_intervals : List (Int × Int)) : Int :=
  ceilHours
    (subtractExclusions (effStart lease_info start_time end_time)
      (effEnd lease_info start_time end_time) excluded_intervals)

/-- Modelled from the spec: the exclusion-aware aggregator `main.main`
invokes (§4.3), folding leases with the exclusion-aware running time. -/
def get_project_invoices_excluded (bm_usage_data : List BMNodeUsage)
    (start_time end_time : Int) (excluded_intervals : List (Int × Int)) :
    List ProjectUsage :=
  bm_usage_data.foldl
    (fun acc lease_info =>
      updateProject acc lease_info.project (get_su_type lease_info)
        (get_running_time_excluded lease_info start_time end_time excluded_intervals))
    []

/-- Length of one exclusion's overlap with the effective interval. -/
def overlapLen (effS effE : Int) (ex : Int × Int) : Int :=
  max 0 (min ex.2 effE - max ex.1 effS)

/-- Two time ranges overlap when the intersection from the later start to
the earlier end is non-empty. -/
def Overlaps (a b : Int × Int) : Prop := max a.1 b.1 < min a.2 b.2

instance (a b : Int × Int) : Decidable (Overlaps a b) :=
  inferInstanceAs (Decidable (max a.1 b.1 < min a.2 b.2))

/-- Ordering of time ranges by start time, the sort key used by
`check_overlapping_intervals`. -/
def leStart (a b : Int × Int) : Prop := a.1 ≤ b.1

instance : DecidableRel leStart := fun a b => inferInstanceAs (Decidable (a.1 ≤ b.1))

instance : IsTotal (Int × Int) leStart := ⟨fun a b => le_total a.1 b.1⟩

instance : IsTrans (Int × Int) leStart := ⟨fun _ _ _ hab hbc => le_trans hab hbc⟩

/-- The adjacent-pair scan of `main.check_overlapping_intervals` over the
already-sorted list: raise on the first `sorted[i][0] < sorted[i-1][1]`. -/
def checkSortedAdjacent : List (Int × Int) → Except String Unit
  | a :: b :: rest =>
    if b.1 < a.2 then Except.error "Overlapping time ranges"
    else checkSortedAdjacent (b :: rest)
  | _ => Except.ok ()

/-- The function `check_overlapping_intervals`, nested in
`main.parse_excluded_time_ranges`: sort the intervals by start time
(Python `sorted` is a stable sort by key, as is `List.insertionSort`),
then scan adjacent pairs. -/
def check_overlapping_intervals (intervals : List (Int × Int)) : Except String Unit :=
  checkSortedAdjacent (List.insertionSort leStart intervals)

/-- The per-range validation loop of `main.parse_excluded_time_ranges`:
reject the first range whose start time is not strictly before its end
time. -/
def validateRanges : List (Int × Int) → Except String Unit
  | [] => Except.ok ()
  | r :: rest =>
    if r.1 ≥ r.2 then Except.error "Start time must be before end time"
    else validateRanges rest

/-- The parser `main.parse_excluded_time_ranges` on already-parsed timestamp pairs:
validate every range in order, then check the whole set for overlap, and
return the ranges unchanged. -/
def parse_excluded_time_ranges (time_ranges : List (Int × Int)) :
    Except String (List (Int × Int)) :=
  match validateRanges time_ranges with
  | Except.error e => Except.error e
  | Except.ok _ =>
    match check_overlapping_intervals time_ranges with
    | Except.error e => Except.error e
    | Except.ok _ => Except.ok time_ranges

/-- The billing run of `main.main` after argument parsing: parse the
excluded ranges when given (aborting on a bad configuration), validate
the ingested usage records, and aggregate. -/
def mainRun (excluded_time_ranges : Option (List (Int × Int)))
    (input_bm : List BMNodeUsage) (start_time end_time : Int) :
    Except String (List ProjectUsage) :=
  match excluded_time_ranges with
  | none =>
    Except.ok (get_project_invoices (validate_expire_time input_bm) start_time end_time)
  | some rs =>
    match parse_excluded_time_ranges rs with
    | Except.error e => Except.error e
    | Except.ok excl =>
      Except.ok (get_project_invoices_excluded (validate_expire_time input_bm)
        start_time end_time excl)

/-- One output row of `billing.InvoiceWriter.write_csv`, with the blank
columns omitted; rates and costs are exact decimals, embedded as
rationals. -/
structure InvoiceRow where
  invoice_month : String
  project_allocation : String
  project_allocation_id : String
  cluster_name : String
  su_hours : Int
  su_type : String
  rate : ℚ
  cost : ℚ
  deriving DecidableEq, Repr

/-- The rate lookup `self.su_rates.root.get(su_type, Decimal(0))`: unknown
SU types are not billed. -/
def ratesGet (su_rates : List (String × ℚ)) (su_type : String) : ℚ :=
  (lookupStr su_rates su_type).getD 0

/-- The rows `billing.InvoiceWriter.write_csv` emits: one row per SU
entry of each project invoice, in order. -/
def write_csv_rows (invoice_month : String) (project_invoices : List ProjectUsage)
    (su_rates : List (String × ℚ)) : List InvoiceRow :=
  project_invoices.flatMap fun pu =>
    pu.su_hours.map fun sh =>
      { invoice_month := invoice_month
        project_allocation := pu.project_name
        project_allocation_id := pu.project_name
        cluster_name := "bm"
        su_hours := sh.2
        su_type := sh.1
        rate := ratesGet su_rates sh.1
        cost := ratesGet su_rates sh.1 * (sh.2 : ℚ) }

example : clamp_time 5 0 10 = 5 := by decide

example : clamp_time (-3) 0 10 = 0 := by decide

example : clamp_time 12 0 10 = 10 := by decide

example : clamp_time 0 5 3 = 3 := by decide

example : ceilHours 13500 = 4 := by decide

example : ceilHours 0 = 0 := by decide

example : ceilHours 3600 = 1 := by decide

example : ceilHours 3601 = 2 := by decide

example :
    get_running_time ⟨"u", "r", "fc430", "P", 0, some 13500⟩ 0 2678400 = 4 := by decide

theorem clamp_spec (t lo hi : Int) :
    clamp_time t lo hi =
      if (if t < lo then lo else t) > hi then hi else if t < lo then lo else t := rfl

theorem get_running_time_nonneg (lease : BMNodeUsage) (ws we : Int) :
    0 ≤ get_running_time lease ws we := by
  rcases hexp : lease.expire_time with _ | e <;>
    simp only [get_running_time, effEnd, effStart, hexp, ceilHours, clamp_spec] <;>
    split_ifs <;> omega

theorem effStart_le_effEnd (lease : BMNodeUsage) (ws we : Int) :
    effStart lease ws we ≤ effEnd lease ws we := by
  rcases hexp : lease.expire_time with _ | e <;>
    simp only [effEnd, effStart, hexp, clamp_spec] <;>
    split_ifs <;> omega

theorem lookupHours_addUsageEntry (sh : List (String × Int)) (su : String)
    (hours : Int) (su' : String) :
    lookupHours (addUsageEntry sh su hours) su' =
      lookupHours sh su' + (if su' = su then hours else 0) := by
  induction sh with
  | nil =>
    by_cases h : su' = su
    · subst h
      simp [addUsageEntry, lookupHours]
    · have h2 : ¬ su = su' := fun hh => h hh.symm
      simp [addUsageEntry, lookupHours, h, h2]
  | cons kv rest ih =>
    obtain ⟨k, v⟩ := kv
    by_cases hk : k = su
    · subst hk
      by_cases h : k = su'
      · subst h
        simp [addUsageEntry, lookupHours]
      · have h2 : ¬ su' = k := fun hh => h hh.symm
        simp [addUsageEntry, lookupHours, h, h2]
    · by_cases h : k = su'
      · subst h
        simp [addUsageEntry, lookupHours, hk]
      · simp [addUsageEntry, lookupHours, hk, h, ih]

theorem aggLookup_updateProject (acc : List ProjectUsage) (p su : String)
    (hours : Int) (p' su' : String) :
    aggLookup (updateProject acc p su hours) p' su' =
      aggLookup acc p' su' + (if p' = p ∧ su' = su then hours else 0) := by
  induction acc with
  | nil =>
    by_cases hp : p = p'
    · subst hp
      by_cases h : su' = su
      · subst h
        simp [updateProject, aggLookup, addUsageEntry, lookupHours]
      · have h2 : ¬ su = su' := fun hh => h hh.symm
        simp [updateProject, aggLookup, addUsageEntry, lookupHours, h, h2]
    · have hp' : ¬ p' = p := fun h => hp h.symm
      simp [updateProject, aggLookup, hp, hp']
  | cons pu rest ih =>
    by_cases hname : pu.project_name = p
    · simp only [updateProject, if_pos hname]
      by_cases hp' : pu.project_name = p'
      · have hpp : p' = p := by rw [← hp', hname]
        simp [aggLookup, lookupHours_addUsageEntry, hpp, hname]
      · have hnot : ¬ (p' = p ∧ su' = su) := fun h => hp' (by rw [hname, h.1])
        simp [aggLookup, hp', hnot]
    · simp only [updateProject, if_neg hname]
      by_cases hp' : pu.project_name = p'
      · have hnot : ¬ (p' = p ∧ su' = su) := fun h => hname (by rw [hp', h.1])
        simp [aggLookup, hp', hnot]
      · simp [aggLookup, hp', ih]

theorem aggLookup_foldl (data : List BMNodeUsage) (acc : List ProjectUsage)
    (ws we : Int) (p su : String) :
    aggLookup
        (data.foldl
          (fun acc lease_info =>
            updateProject acc lease_info.project (get_su_type lease_info)
              (get_running_time lease_info ws we))
          acc) p su =
      aggLookup acc p su + (data.map (leaseContrib ws we p su)).sum := by
  induction data generalizing acc with
  | nil => simp
  | cons lease rest ih =>
    simp only [List.foldl_cons, List.map_cons, List.sum_cons, ih,
      aggLookup_updateProject, leaseContrib]
    omega

/-- The aggregate cell for `(p, su)` is the sum of the per-lease
contributions, in input order. -/
theorem aggLookup_get_project_invoices (data : List BMNodeUsage) (ws we : Int)
    (p su : String) :
    aggLookup (get_project_invoices data ws we) p su =
      (data.map (leaseContrib ws we p su)).sum := by
  simpa [get_project_invoices, aggLookup] using aggLookup_foldl data [] ws we p su

theorem validate_expire_time_eq_filter (l : List BMNodeUsage) :
    validate_expire_time l = l.filter keepB := by
  induction l with
  | nil => rfl
  | cons r rest ih =>
    rcases hexp : r.expire_time with _ | e
    · simp [validate_expire_time, hexp, List.filter_cons, keepB, ih]
    · simp only [validate_expire_time, hexp, List.filter_cons]
      by_cases h : e < r.start_time
      · have hk : keepB r = false := by simp [keepB, hexp]; omega
        rw [if_pos h, hk, ih]
        simp
      · have hk : keepB r = true := by simp [keepB, hexp]; omega
        rw [if_neg h, hk, ih]
        simp

/-- C7: aggregation is order-independent — permuting the input lease list
yields the same mapping from project to SU type to accumulated hours. -/
theorem aggregation_perm_invariant (l₁ l₂ : List BMNodeUsage)
    (hperm : l₁.Perm l₂) (ws we : Int) (p su : String) :
    aggLookup (get_project_invoices l₁ ws we) p su =
      aggLookup (get_project_invoices l₂ ws we) p su := by
  rw [aggLookup_get_project_invoices, aggLookup_get_project_invoices]
  exact (hperm.map (leaseContrib ws we p su)).sum_eq

/-- C4: for a validated input and any window, each `(project, suType)`
cell of the aggregate is a non-negative integer equal to the sum of the
contributions of the surviving records (each record counted exactly
once); ingestion validation is exactly the filter keeping records whose
expire time is absent or at least the start time, so records with
`expireTime < startTime` never reach the aggregator. -/
theorem aggregate_nonneg_and_exact (l : List BMNodeUsage) (ws we : Int)
    (hw : ws ≤ we) :
    (∀ p su, 0 ≤ aggLookup (get_project_invoices (validate_expire_time l) ws we) p su) ∧
      (∀ p su,
        aggLookup (get_project_invoices (validate_expire_time l) ws we) p su =
          ((validate_expire_time l).map (leaseContrib ws we p su)).sum) ∧
      validate_expire_time l = l.filter keepB ∧
      (∀ r ∈ validate_expire_time l, ∀ e, r.expire_time = some e → r.start_time ≤ e) := by
  refine ⟨fun p su => ?_, fun p su => aggLookup_get_project_invoices _ ws we p su,
    validate_expire_time_eq_filter l, fun r hr e he => ?_⟩
  · rw [aggLookup_get_project_invoices]
    apply List.sum_nonneg
    intro x hx
    simp only [List.mem_map] at hx
    obtain ⟨lease, _, rfl⟩ := hx
    unfold leaseContrib
    split_ifs
    · exact get_running_time_nonneg lease ws we
    · exact le_refl 0
  · rw [validate_expire_time_eq_filter] at hr
    have := (List.mem_filter.mp hr).2
    simp only [keepB, he, decide_eq_true_eq] at this
    exact this

theorem aggregate_nonneg_and_exact_witness :
    (0 : Int) ≤ 86400 ∧
      (∀ p su, 0 ≤ aggLookup
        (get_project_invoices
          (validate_expire_time [⟨"u", "r", "fc430", "P1", 0, some 3600⟩]) 0 86400)
        p su) :=
  ⟨by decide,
    (aggregate_nonneg_and_exact [⟨"u", "r", "fc430", "P1", 0, some 3600⟩] 0 86400
      (by decide)).1⟩

theorem aggregation_perm_invariant_witness :
    aggLookup
        (get_project_invoices
          [⟨"u1", "r", "fc430", "P1", 0, some 3600⟩,
           ⟨"u2", "r", "fc830", "P2", 0, some 7200⟩] 0 86400) "P1" "BM FC430" =
      aggLookup
        (get_project_invoices
          [⟨"u2", "r", "fc830", "P2", 0, some 7200⟩,
           ⟨"u1", "r", "fc430", "P1", 0, some 3600⟩] 0 86400) "P1" "BM FC430" :=
  aggregation_perm_invariant _ _
    (List.Perm.swap ⟨"u2", "r", "fc830", "P2", 0, some 7200⟩
      ⟨"u1", "r", "fc430", "P1", 0, some 3600⟩ [])
    0 86400 "P1" "BM FC430"

/-- C8: classification is total — a resource class found in the static
table maps to the table's canonical SU name, and one absent from the
table passes through verbatim as its own SU type; in rendering, a row
whose SU type is absent from the rate table gets rate `0` and cost `0`
rather than being rejected. -/
theorem classification_total_unknown_rate_zero :
    (∀ (lease_info : BMNodeUsage) (su : String),
      lookupStr RESOURCE_CLASS_2_SU_MAPPING lease_info.resource_class = some su →
        get_su_type lease_info = su) ∧
    (∀ lease_info : BMNodeUsage,
      lookupStr RESOURCE_CLASS_2_SU_MAPPING lease_info.resource_class = none →
        get_su_type lease_info = lease_info.resource_class) ∧
    (∀ (invoice_month : String) (project_invoices : List ProjectUsage)
        (su_rates : List (String × ℚ)) (row : InvoiceRow),
      row ∈ write_csv_rows invoice_month project_invoices su_rates →
        lookupStr su_rates row.su_type = none →
          row.rate = 0 ∧ row.cost = 0) := by
  refine ⟨fun lease su h => ?_, fun lease h => ?_, ?_⟩
  · simp [get_su_type, h]
  · simp [get_su_type, h]
  · intro month invoices rates row hmem hnone
    simp only [write_csv_rows, List.mem_flatMap, List.mem_map] at hmem
    obtain ⟨pu, _, sh, _, rfl⟩ := hmem
    simp only at hnone
    constructor
    · simp [ratesGet, hnone]
    · simp [ratesGet, hnone]

theorem classification_total_unknown_rate_zero_witness :
    get_su_type ⟨"u", "r", "fc430", "P1", 0, none⟩ = "BM FC430" ∧
      get_su_type ⟨"u", "r", "ChickFilA", "P1", 0, none⟩ = "ChickFilA" :=
  ⟨classification_total_unknown_rate_zero.1 ⟨"u", "r", "fc430", "P1", 0, none⟩
      "BM FC430" (by decide),
   classification_total_unknown_rate_zero.2.1 ⟨"u", "r", "ChickFilA", "P1", 0, none⟩
      (by decide)⟩

/-- C9 (counterexample): the clamp contract fails when the bounds are
inverted — with `time = 0 < lower = 5` and `upper = 3`, the code returns
`3`, not `lower`, because the upper bound is applied after the lower one. -/
theorem clamp_time_contract_counterexample :
    (0 : Int) < 5 ∧ clamp_time 0 5 3 = 3 ∧ (3 : Int) ≠ 5 := by decide

/-- C9 (amended): provided `lower ≤ upper`, `clamp_time` returns `lower`
when `time < lower`, `upper` when `time > upper`, and `time` unchanged
otherwise. -/
theorem clamp_time_contract (t lo hi : Int) (h : lo ≤ hi) :
    (t < lo → clamp_time t lo hi = lo) ∧
    (hi < t → clamp_time t lo hi = hi) ∧
    (lo ≤ t → t ≤ hi → clamp_time t lo hi = t) := by
  refine ⟨fun h1 => ?_, fun h1 => ?_, fun h1 h2 => ?_⟩ <;>
    rw [clamp_spec] <;> split_ifs <;> omega

theorem clamp_time_contract_witness :
    (1 : Int) ≤ 10 ∧ clamp_time 0 1 10 = 1 :=
  ⟨by decide, (clamp_time_contract 0 1 10 (by decide)).1 (by decide)⟩

/-- C10: for an inverted window (`windowEnd < windowStart`) the clamped
start and the effective end both collapse to `windowEnd`, and the running
time is exactly `0`, never negative. -/
theorem inverted_window_zero (lease : BMNodeUsage) (ws we : Int) (h : we < ws) :
    effStart lease ws we = we ∧ effEnd lease ws we = we ∧
      get_running_time lease ws we = 0 := by
  rcases hexp : lease.expire_time with _ | e <;>
    simp only [get_running_time, effEnd, effStart, hexp, ceilHours, clamp_spec] <;>
    refine ⟨?_, ?_, ?_⟩ <;> first
    | trivial
    | (split_ifs <;> omega)

theorem inverted_window_zero_witness :
    get_running_time ⟨"u", "r", "fc430", "P1", 0, some 50⟩ 100 0 = 0 :=
  (inverted_window_zero ⟨"u", "r", "fc430", "P1", 0, some 50⟩ 100 0 (by decide)).2.2

/-- C5: a lease with no expire time is billed through `windowEnd`
exactly: its effective end is `windowEnd` and its hours are the ceiling
of `windowEnd - clamp(startTime, windowStart, windowEnd)` in hours. -/
theorem open_ended_bills_through_window_end (lease : BMNodeUsage) (ws we : Int)
    (hexp : lease.expire_time = none) (hw : ws ≤ we) :
    effEnd lease ws we = we ∧
      get_running_time lease ws we =
        ceilHours (we - clamp_time lease.start_time ws we) := by
  simp only [get_running_time, effEnd, effStart, hexp]
  exact ⟨trivial, trivial⟩

theorem open_ended_bills_through_window_end_witness :
    effEnd ⟨"u", "r", "fc430", "P1", 0, none⟩ 0 7200 = 7200 ∧
      get_running_time ⟨"u", "r", "fc430", "P1", 0, none⟩ 0 7200 =
        ceilHours (7200 - clamp_time 0 0 7200) :=
  open_ended_bills_through_window_end ⟨"u", "r", "fc430", "P1", 0, none⟩ 0 7200
    rfl (by decide)

/-- C6: a lease fully outside the billing window — expire time at or
before `windowStart`, or start time at or after `windowEnd` (including
open-ended leases) — yields exactly `0` hours. -/
theorem outside_window_zero_hours (lease : BMNodeUsage) (ws we : Int)
    (h : (∃ e, lease.expire_time = some e ∧ e ≤ ws) ∨ we ≤ lease.start_time) :
    get_running_time lease ws we = 0 := by
  rcases h with ⟨e, hexp, he⟩ | hs
  · simp only [get_running_time, effEnd, effStart, hexp, ceilHours, clamp_spec]
    split_ifs <;> omega
  · rcases hexp : lease.expire_time with _ | e <;>
      simp only [get_running_time, effEnd, effStart, hexp, ceilHours, clamp_spec] <;>
      split_ifs <;> omega

theorem outside_window_zero_hours_witness :
    get_running_time ⟨"u", "r", "fc430", "P1", -500, some (-100)⟩ 0 86400 = 0 ∧
      get_running_time ⟨"u", "r", "fc430", "P1", 90000, none⟩ 0 86400 = 0 :=
  ⟨outside_window_zero_hours ⟨"u", "r", "fc430", "P1", -500, some (-100)⟩ 0 86400
      (Or.inl ⟨-100, rfl, by decide⟩),
   outside_window_zero_hours ⟨"u", "r", "fc430", "P1", 90000, none⟩ 0 86400
      (Or.inr (by decide))⟩

/-- C3: billable seconds are converted to hours by rounding up to the
nearest whole hour: the running time `h` satisfies
`secs ≤ 3600 * h < secs + 3600` (the defining property of the ceiling),
a lease active for exactly 3h45m (13500 s) bills as 4 hours, and a lease
active for 0 seconds bills as 0 hours. -/
theorem ceiling_hours_rounding (lease : BMNodeUsage) (ws we : Int) :
    (effEnd lease ws we - effStart lease ws we) ≤
        3600 * get_running_time lease ws we ∧
      3600 * get_running_time lease ws we <
        (effEnd lease ws we - effStart lease ws we) + 3600 ∧
      get_running_time ⟨"u", "r", "fc430", "P1", 0, some 13500⟩ 0 2678400 = 4 ∧
      get_running_time ⟨"u", "r", "fc430", "P1", 900, some 900⟩ 0 2678400 = 0 := by
  refine ⟨?_, ?_, by decide, by decide⟩ <;>
    simp only [get_running_time, ceilHours] <;> omega

theorem overlaps_symm {a b : Int × Int} (h : Overlaps a b) : Overlaps b a := by
  unfold Overlaps at *
  omega

theorem foldl_subtract_eq (exclusions : List (Int × Int)) (init effS effE : Int) :
    exclusions.foldl
        (fun total ex =>
          if max ex.1 effS < min ex.2 effE then total - (min ex.2 effE - max ex.1 effS)
          else total)
        init =
      init - (exclusions.map (overlapLen effS effE)).sum := by
  induction exclusions generalizing init with
  | nil => simp
  | cons ex rest ih =>
    simp only [List.foldl_cons, List.map_cons, List.sum_cons, ih, overlapLen]
    split_ifs <;> omega

/-- C1: with pairwise-disjoint exclusions, the billable time equals the
effective interval's full duration minus each exclusion's overlap with
the interval (the overlap being empty or `min` of ends minus `max` of
starts), floored at zero; an exclusion covering the whole active window
yields zero billable hours regardless of lease duration. -/
theorem exclusion_subtraction (lease_info : BMNodeUsage) (ws we : Int)
    (excl : List (Int × Int))
    (hdisj : excl.Pairwise fun a b => a.2 ≤ b.1 ∨ b.2 ≤ a.1) :
    get_running_time_excluded lease_info ws we excl =
      ceilHours
        (max
          (effEnd lease_info ws we - effStart lease_info ws we -
            (excl.map
              (overlapLen (effStart lease_info ws we) (effEnd lease_info ws we))).sum)
          0) ∧
    (∀ a b : Int, a ≤ effStart lease_info ws we → effEnd lease_info ws we ≤ b →
      get_running_time_excluded lease_info ws we [(a, b)] = 0) := by
  constructor
  · unfold get_running_time_excluded subtractExclusions
    rw [foldl_subtract_eq]
  · intro a b ha hb
    have hse := effStart_le_effEnd lease_info ws we
    unfold get_running_time_excluded subtractExclusions ceilHours
    simp only [List.foldl_cons, List.foldl_nil]
    split_ifs <;> omega

theorem exclusion_subtraction_witness :
    get_running_time_excluded ⟨"u", "r", "fc430", "P1", 0, some 7200⟩ 0 86400
        [(-100, 90000)] = 0 :=
  (exclusion_subtraction ⟨"u", "r", "fc430", "P1", 0, some 7200⟩ 0 86400
      [(-100, 90000)] (by simp)).2 (-100) 90000 (by decide) (by decide)

theorem validateRanges_ok_iff (l : List (Int × Int)) :
    validateRanges l = Except.ok () ↔ ∀ r ∈ l, r.1 < r.2 := by
  induction l with
  | nil => simp [validateRanges]
  | cons r rest ih =>
    simp only [validateRanges]
    split_ifs with h
    · constructor
      · intro hfalse
        exact absurd hfalse (by simp)
      · intro hall
        exact absurd (hall r (by simp)) (by omega)
    · rw [ih]
      constructor
      · intro hall r' hr'
        rcases List.mem_cons.mp hr' with rfl | hm
        · omega
        · exact hall r' hm
      · intro hall r' hr'
        exact hall r' (List.mem_cons_of_mem r hr')

theorem checkSortedAdjacent_ok_iff :
    ∀ s : List (Int × Int), s.Sorted leStart → (∀ r ∈ s, r.1 < r.2) →
      (checkSortedAdjacent s = Except.ok () ↔ s.Pairwise fun a b => ¬ Overlaps a b)
  | [], _, _ => by simp [checkSortedAdjacent]
  | [a], _, _ => by simp [checkSortedAdjacent]
  | a :: b :: rest, hsort, hval => by
    have hab : leStart a b := (List.sorted_cons.mp hsort).1 b (by simp)
    have htail : (b :: rest).Sorted leStart := (List.sorted_cons.mp hsort).2
    have hvaltail : ∀ r ∈ b :: rest, r.1 < r.2 := fun r hr =>
      hval r (List.mem_cons_of_mem a hr)
    have ih := checkSortedAdjacent_ok_iff (b :: rest) htail hvaltail
    by_cases h : b.1 < a.2
    · simp only [checkSortedAdjacent, if_pos h]
      constructor
      · intro hfalse
        exact absurd hfalse (by simp)
      · intro hpw
        exfalso
        have hnab : ¬ Overlaps a b := (List.pairwise_cons.mp hpw).1 b (by simp)
        have h1 := hval a (by simp)
        have h2 := hval b (by simp)
        unfold Overlaps leStart at *
        omega
    · simp only [checkSortedAdjacent, if_neg h]
      rw [ih]
      constructor
      · intro hpw
        refine List.pairwise_cons.mpr ⟨?_, hpw⟩
        intro c hc
        rcases List.mem_cons.mp hc with rfl | hc'
        · unfold Overlaps leStart at *
          omega
        · have hbc : leStart b c := (List.sorted_cons.mp htail).1 c hc'
          unfold Overlaps leStart at *
          omega
      · exact fun hpw => (List.pairwise_cons.mp hpw).2

theorem check_overlapping_intervals_ok_iff (l : List (Int × Int))
    (hval : ∀ r ∈ l, r.1 < r.2) :
    check_overlapping_intervals l = Except.ok () ↔
      l.Pairwise fun a b => ¬ Overlaps a b := by
  unfold check_overlapping_intervals
  have hperm := List.perm_insertionSort leStart l
  have hsort := List.sorted_insertionSort leStart l
  have hvs : ∀ r ∈ List.insertionSort leStart l, r.1 < r.2 := fun r hr =>
    hval r (hperm.mem_iff.mp hr)
  rw [checkSortedAdjacent_ok_iff _ hsort hvs]
  exact hperm.pairwise_iff fun hnab hba => hnab (overlaps_symm hba)

theorem parse_excluded_time_ranges_ok_iff (l : List (Int × Int)) :
    parse_excluded_time_ranges l = Except.ok l ↔
      ((∀ r ∈ l, r.1 < r.2) ∧ l.Pairwise fun a b => ¬ Overlaps a b) := by
  unfold parse_excluded_time_ranges
  cases hv : validateRanges l with
  | error e =>
    have hnv : ¬ ∀ r ∈ l, r.1 < r.2 := fun hall => by
      rw [(validateRanges_ok_iff l).mpr hall] at hv
      exact absurd hv (by simp)
    constructor
    · intro hfalse
      exact absurd hfalse (by simp)
    · intro hboth
      exact absurd hboth.1 hnv
  | ok u =>
    cases u
    have hvv : ∀ r ∈ l, r.1 < r.2 := (validateRanges_ok_iff l).mp hv
    cases hc : check_overlapping_intervals l with
    | error e =>
      have hnc : ¬ l.Pairwise fun a b => ¬ Overlaps a b := fun hpw => by
        rw [(check_overlapping_intervals_ok_iff l hvv).mpr hpw] at hc
        exact absurd hc (by simp)
      constructor
      · intro hfalse
        exact absurd hfalse (by simp)
      · intro hboth
        exact absurd hboth.2 hnc
    | ok u =>
      constructor
      · intro _
        exact ⟨hvv, (check_overlapping_intervals_ok_iff l hvv).mp hc⟩
      · intro _
        rfl

theorem parse_excluded_time_ranges_error_iff (l : List (Int × Int)) :
    (∃ e, parse_excluded_time_ranges l = Except.error e) ↔
      ¬ ((∀ r ∈ l, r.1 < r.2) ∧ l.Pairwise fun a b => ¬ Overlaps a b) := by
  rw [← parse_excluded_time_ranges_ok_iff]
  unfold parse_excluded_time_ranges
  cases hv : validateRanges l with
  | error e => simp
  | ok u =>
    cases u
    cases hc : check_overlapping_intervals l with
    | error e => simp
    | ok u => simp

/-- C2: the billing run raises an error exactly when the excluded-range
configuration is invalid — some range with end at or before its start, or
two overlapping ranges; with a valid or absent configuration the run
completes and produces the aggregated output. -/
theorem run_errors_iff_bad_exclusions (rs : List (Int × Int))
    (input_bm : List BMNodeUsage) (ws we : Int) :
    ((∃ e, mainRun (some rs) input_bm ws we = Except.error e) ↔
      ((∃ r ∈ rs, r.2 ≤ r.1) ∨ ¬ rs.Pairwise fun a b => ¬ Overlaps a b)) ∧
    mainRun none input_bm ws we =
      Except.ok (get_project_invoices (validate_expire_time input_bm) ws we) ∧
    (((∀ r ∈ rs, r.1 < r.2) ∧ rs.Pairwise fun a b => ¬ Overlaps a b) →
      mainRun (some rs) input_bm ws we =
        Except.ok
          (get_project_invoices_excluded (validate_expire_time input_bm) ws we rs)) := by
  have hiff :
      ((∃ r ∈ rs, r.2 ≤ r.1) ∨ ¬ rs.Pairwise fun a b => ¬ Overlaps a b) ↔
        ¬ ((∀ r ∈ rs, r.1 < r.2) ∧ rs.Pairwise fun a b => ¬ Overlaps a b) := by
    constructor
    · rintro (⟨r, hr, hle⟩ | hnp) ⟨hall, hpw⟩
      · exact absurd (hall r hr) (by omega)
      · exact hnp hpw
    · intro hn
      by_cases hall : ∀ r ∈ rs, r.1 < r.2
      · exact Or.inr fun hpw => hn ⟨hall, hpw⟩
      · left
        push_neg at hall
        obtain ⟨r, hr, hle⟩ := hall
        exact ⟨r, hr, by omega⟩
  refine ⟨?_, rfl, ?_⟩
  · rw [hiff, ← parse_excluded_time_ranges_error_iff]
    cases hp : parse_excluded_time_ranges rs with
    | error e =>
      have hm : mainRun (some rs) input_bm ws we = Except.error e := by
        simp only [mainRun]
        rw [hp]
      constructor
      · intro _
        exact ⟨e, rfl⟩
      · intro _
        exact ⟨e, hm⟩
    | ok excl =>
      have hm : mainRun (some rs) input_bm ws we =
          Except.ok
            (get_project_invoices_excluded (validate_expire_time input_bm) ws we excl) := by
        simp only [mainRun]
        rw [hp]
      constructor
      · rintro ⟨e, he⟩
        rw [hm] at he
        exact absurd he (by simp)
      · rintro ⟨e, he⟩
        exact absurd he (by simp)
  · intro hvalid
    have hok := (parse_excluded_time_ranges_ok_iff rs).mpr hvalid
    simp only [mainRun]
    rw [hok]

theorem run_errors_iff_bad_exclusions_witness :
    mainRun (some [(0, 3600)]) [⟨"u", "r", "fc430", "P1", 0, some 7200⟩] 0 86400 =
      Except.ok
        (get_project_invoices_excluded
          (validate_expire_time [⟨"u", "r", "fc430", "P1", 0, some 7200⟩]) 0 86400
          [(0, 3600)]) :=
  (run_errors_iff_bad_exclusions [(0, 3600)]
      [⟨"u", "r", "fc430", "P1", 0, some 7200⟩] 0 86400).2.2
    ⟨by decide, by simp⟩

end BareMetalBilling
